import Mathlib

/-!
Verification of the EMLL IR-core specification against the repository source.

The repository fragment under verification is `src/libraries/nodes/include/ConstantNode.h`,
a leaf node type of a model-compilation IR.  The shared substrate it plugs into
(Port/PortElements, Node, Model, ModelTransformer, the reflection serialization
protocol of `ObjectDescription` / `SerializationContext`) and the out-of-line
template bodies (`tcc/ConstantNode.tcc`) are not part of the visible source;
where a definition below embeds one of those missing pieces it is modelled from
the specification text and its doc comment says so.  Everything present in
`ConstantNode.h` (type-name scheme, port member layout, `GetRuntimeTypeName`)
is embedded directly from that header.

Value types: the C++ code is parameterized by a `ValueType` (e.g. `double`).
The IR only stores, copies, describes and compares such values - it performs no
arithmetic on them - so the embedding is parameterized by an arbitrary Lean
type `α`; concrete scenarios instantiate `α := ℚ`, on which the literals
`1.0, 2.0, 3.0` are exact.  A C++ value type is identified by its type-name
string (as produced by `utilities::TypeName`), passed explicitly where the C++
obtains it from the template argument.
-/

namespace EMLL

/-- Modelled from the spec: `utilities::GetCompositeTypeName` (from the missing
`utilities/TypeName.h`) composes a base type name with the value type's name;
the spec's concrete scenario shows the result `ConstantNode<double>` for base
`ConstantNode` and value type `double`. -/
def GetCompositeTypeName (valueTypeName baseType : String) : String :=
  baseType ++ "<" ++ valueTypeName ++ ">"

/-- Modelled from the spec: the `utilities::TypeName` of C++ `double`, as shown
in the spec's concrete scenario (`ConstantNode<double>`). -/
def doubleName : String := "double"

/-- A field value inside an `ObjectDescription`: a primitive value or an
ordered sequence of values.  Modelled from the spec's data model of
`ObjectDescription` (the serialization substrate is not in the visible
source); nested descriptions are not needed by any node in this fragment. -/
inductive FieldValue (α : Type) where
  | prim (value : α)
  | seq (values : List α)
deriving DecidableEq, Repr

/-- Modelled from the spec: `ObjectDescription` is a type-erased record of an
object's runtime type name plus a mapping from field name to field value. -/
structure ObjectDescription (α : Type) where
  typeName : String
  fields : List (String × FieldValue α)
deriving DecidableEq, Repr

/-- Look up a field of an `ObjectDescription` by name. -/
def ObjectDescription.getField (d : ObjectDescription α) (name : String) :
    Option (FieldValue α) :=
  (d.fields.find? (fun f => f.1 == name)).map (·.2)

/-- From `ConstantNode.h` line 39: `static constexpr const char* outputPortName = "output";`. -/
def outputPortName : String := "output"

/-- `nodes::ConstantNode<ValueType>`: a node that contains a constant value
(`_values`, line 108 of `ConstantNode.h`).  Has no inputs. -/
structure ConstantNode (α : Type) where
  values : List α
deriving DecidableEq, Repr

/-- From `ConstantNode.h` line 64:
`static std::string GetTypeName() { return utilities::GetCompositeTypeName<ValueType>("ConstantNode"); }`. -/
def ConstantNode.GetTypeName (valueTypeName : String) : String :=
  GetCompositeTypeName valueTypeName "ConstantNode"

/-- From `ConstantNode.h` line 69:
`virtual std::string GetRuntimeTypeName() const override { return GetTypeName(); }`. -/
def ConstantNode.GetRuntimeTypeName (valueTypeName : String)
    (_node : ConstantNode α) : String :=
  ConstantNode.GetTypeName valueTypeName

/-- From `ConstantNode.h` line 57: `GetValues` returns `_values`. -/
def ConstantNode.GetValues (node : ConstantNode α) : List α :=
  node.values

/-- Modelled from the spec: the body of `ConstantNode<ValueType>::Compute`
(declared at line 101 of `ConstantNode.h`, defined in the missing
`tcc/ConstantNode.tcc`).  Per spec, `Compute()` produces values for every
owned output port; a `ConstantNode` owns the single port `output` and fills
it with its stored `_values`, reading no inputs.  The result is the list of
value sequences of the node's output ports. -/
def ConstantNode.Compute (node : ConstantNode α) : List (List α) :=
  [node.values]

/-- Modelled from the spec: `ConstantNode::GetDescription` (declared in
`ConstantNode.h`, body missing) produces an `ObjectDescription` tagged with
the node's runtime type name and capturing exactly its constructor-relevant
state, namely the stored `values`. -/
def ConstantNode.GetDescription (valueTypeName : String)
    (node : ConstantNode α) : ObjectDescription α :=
  { typeName := ConstantNode.GetTypeName valueTypeName
    fields := [("values", FieldValue.seq node.values)] }

/-- Modelled from the spec: `ConstantNode::SetObjectState` (declared in
`ConstantNode.h`, body missing) reconstructs the node's state from a
description; a missing or wrongly-shaped `values` field is a
`MalformedDescriptionError`, reported here as `none`. -/
def ConstantNode.SetObjectState (d : ObjectDescription α) :
    Option (ConstantNode α) :=
  match d.getField "values" with
  | some (FieldValue.seq vs) => some ⟨vs⟩
  | _ => none

/-- Modelled from the spec: one constituent `(source OutputPort, index range)`
pair of a `PortElements` selection.  A source output port is addressed by the
insertion index of its owning node within the `Model` (`srcNode`) and the
port's position among that node's output ports (`srcPort`); the range selects
`numValues` elements starting at `startIndex`. -/
structure PortRange where
  srcNode : Nat
  srcPort : Nat
  startIndex : Nat
  numValues : Nat
deriving DecidableEq, Repr

/-- Modelled from the spec: `PortElements` is an ordered list of
`(source OutputPort, index range)` pairs; `Resolve()` concatenates the
selected values across the constituent ranges. -/
abbrev PortElements := List PortRange

/-- Modelled from the spec: a `Node` of the IR graph.  It carries its runtime
type name, its ordered input references (input name plus `PortElements`
binding), the names of its owned output ports, its pure computation step
(resolved input sequences in, one value sequence per owned output port out),
and its constructor-relevant reflection state (the fields that
`GetDescription` reports and `SetObjectState` consumes). -/
structure Node (α : Type) where
  typeName : String
  inputs : List (String × PortElements)
  outputNames : List String
  compute : List (List α) → List (List α)
  state : List (String × FieldValue α)

/-- Modelled from the spec: `GetDescription` walks a node's declared fields and
produces an `ObjectDescription` tagged with the node's runtime type name. -/
def Node.GetDescription (nd : Node α) : ObjectDescription α :=
  { typeName := nd.typeName, fields := nd.state }

/-- Modelled from the spec: a `Model` owns the full set of nodes of a graph in
insertion order; a node's identity is its insertion index. -/
structure Model (α : Type) where
  nodes : List (Node α)

/-- The number of nodes of a model. -/
def Model.size (m : Model α) : Nat := m.nodes.length

/-- Modelled from the spec: the dependency relation derived from the input
bindings - `dependsOn m i j` holds when some input binding of node `i`
references an output port of node `j` (edge of the dependency graph). -/
def Model.dependsOn (m : Model α) (i j : Nat) : Bool :=
  match m.nodes[i]? with
  | some nd => nd.inputs.any (fun b => b.2.any (fun r => r.srcNode == j))
  | none => false

/-- The dependency edge relation as a proposition. -/
def Model.Edge (m : Model α) (i j : Nat) : Prop := m.dependsOn i j = true

instance (m : Model α) (i j : Nat) : Decidable (m.Edge i j) := by
  unfold Model.Edge; infer_instance

/-- Modelled from the spec: the dependency graph of a valid `Model` is acyclic
- no node transitively depends on itself. -/
def Model.Acyclic (m : Model α) : Prop :=
  ∀ i, ¬ Relation.TransGen m.Edge i i

/-- Well-formedness of the bindings: every referenced source node exists in the
model (the spec requires all selected ranges to reference ports whose owning
nodes are in the same model). -/
def Model.WFRefs (m : Model α) : Prop :=
  ∀ i j, m.Edge i j → j < m.size

/-- A node is ready to be emitted once every node supplying one of its inputs
has already been emitted. -/
def Model.ready (m : Model α) (emitted : List Nat) (i : Nat) : Bool :=
  match m.nodes[i]? with
  | some nd => nd.inputs.all (fun b => b.2.all (fun r => emitted.contains r.srcNode))
  | none => true

/-- Modelled from the spec: the worker loop of `GetDependencyOrder` (Kahn-style
topological traversal).  `emitted` holds the already-emitted nodes most recent
first; `rem` holds the remaining insertion indices in ascending insertion
order, so `find?` picks the *lowest insertion index* among the ready nodes -
the spec's tie-break rule.  The fuel equals the number of remaining nodes. -/
def depOrderGo (m : Model α) : Nat → List Nat → List Nat → List Nat
  | 0, emitted, _ => emitted.reverse
  | fuel+1, emitted, rem =>
    match rem.find? (m.ready emitted) with
    | none => emitted.reverse
    | some i => depOrderGo m fuel (i :: emitted) (rem.erase i)

/-- Modelled from the spec: `Model::GetDependencyOrder` returns the node
indices in dependency (topological) order, every node after all nodes it
depends on, ties among independent nodes broken by insertion order. -/
def Model.GetDependencyOrder (m : Model α) : List Nat :=
  depOrderGo m m.size [] (List.range m.size)

/-- Modelled from the spec: resolving one `(source OutputPort, index range)`
pair against the map `outputsOf` from node index to computed per-port output
sequences: select `numValues` elements of the source port starting at
`startIndex`. -/
def resolveRange (outputsOf : Nat → List (List α)) (r : PortRange) : List α :=
  ((((outputsOf r.srcNode)[r.srcPort]?).getD []).drop r.startIndex).take r.numValues

/-- Modelled from the spec: `PortElements::Resolve()` returns the concatenated
selected values across its constituent ranges. -/
def resolveElements (outputsOf : Nat → List (List α)) (pe : PortElements) : List α :=
  (pe.map (resolveRange outputsOf)).flatten

/-- Modelled from the spec: evaluation of node `i` of a model - resolve each
bound input via `PortElements` resolution against the recursively evaluated
upstream outputs, then run the node's computation step.  The result is the
value sequence of each of the node's output ports.  `fuel` bounds the
recursion depth; on an acyclic well-formed graph, a fuel of `m.size` is always
sufficient. -/
def Model.evalNode (m : Model α) : Nat → Nat → List (List α)
  | 0, _ => []
  | fuel+1, i =>
    match m.nodes[i]? with
    | some nd =>
        nd.compute (nd.inputs.map (fun b => resolveElements (m.evalNode fuel) b.2))
    | none => []

/-- Evaluate node `i` of a model (with the always-sufficient fuel `m.size`). -/
def Model.Evaluate (m : Model α) (i : Nat) : List (List α) :=
  m.evalNode m.size i

/-- Redirect one port range through the old-node-index to new-node-index map
`σ` of a transformer. -/
def remapRange (σ : Nat → Nat) (r : PortRange) : PortRange :=
  { r with srcNode := σ r.srcNode }

/-- Redirect all input references of a node through the transformer's
old-to-new map `σ`, leaving everything else as a verbatim copy. -/
def remapNode (σ : Nat → Nat) (nd : Node α) : Node α :=
  { nd with inputs := nd.inputs.map (fun b => (b.1, b.2.map (remapRange σ))) }

/-- Placeholder node used for an out-of-range lookup (never reached on a
well-formed model). -/
def fallbackNode : Node α :=
  { typeName := "", inputs := [], outputNames := [], compute := fun _ => [], state := [] }

/-- Modelled from the spec: the `ModelTransformer` verbatim-copy pass.  The
source nodes are visited in dependency order; each visited node adds its
verbatim copy to the target model, rebinding its input references through the
old-port to new-port map accumulated so far.  Since nodes are identified by
insertion index, the old-to-new map sends an old index to its position in the
visit order. -/
def Model.TransformCopy (m : Model α) : Model α :=
  let d := m.GetDependencyOrder
  ⟨d.map (fun i => remapNode (fun j => d.indexOf j) ((m.nodes[i]?).getD fallbackNode))⟩

/-- Modelled from the spec: construction-time graph errors. -/
inductive GraphError where
  | cyclicGraphError
  | dimensionMismatchError
deriving DecidableEq, Repr

/-- Bounded reachability along dependency edges: `reachesIn fuel s t` decides
whether some dependency path of length at most `fuel` leads from `s` to `t`. -/
def Model.reachesIn (m : Model α) : Nat → Nat → Nat → Bool
  | 0, s, t => s == t
  | fuel+1, s, t =>
    s == t || (List.range m.size).any (fun j => m.dependsOn s j && m.reachesIn fuel j t)

/-- Append the input binding `(name, pe)` to node `i` of the model (no cycle
check; internal step of `bindInput`). -/
def Model.addBinding (m : Model α) (i : Nat) (name : String) (pe : PortElements) :
    Model α :=
  match m.nodes[i]? with
  | some nd => ⟨m.nodes.set i { nd with inputs := nd.inputs ++ [(name, pe)] }⟩
  | none => m

/-- Modelled from the spec: adding an input binding checks, at bind time,
whether any newly referenced source node already (reflexively-transitively)
depends on the node being bound; if so the bind fails with `CyclicGraphError`
and returns the model unchanged, otherwise it returns the extended model. -/
def Model.bindInput (m : Model α) (i : Nat) (name : String) (pe : PortElements) :
    Model α × Option GraphError :=
  if pe.any (fun r => m.reachesIn m.size r.srcNode i) then
    (m, some GraphError.cyclicGraphError)
  else
    (m.addBinding i name pe, none)

/-- Modelled from the spec: serialization errors. -/
inductive SerializationError where
  | unknownTypeNameError (typeName : String)
  | malformedDescriptionError (typeName : String)
deriving DecidableEq, Repr

/-- Modelled from the spec: the `SerializationContext` registry mapping a
runtime type name to the factory that reconstructs an object of that kind
from an `ObjectDescription` (returning `none` on a malformed description). -/
structure SerializationContext (α : Type) where
  registry : List (String × (ObjectDescription α → Option (Node α)))

/-- Look up the factory registered for a type name. -/
def SerializationContext.lookup (ctx : SerializationContext α) (t : String) :
    Option (ObjectDescription α → Option (Node α)) :=
  (ctx.registry.find? (fun e => e.1 == t)).map (·.2)

/-- Modelled from the spec: serializing a model writes the self-describing
`ObjectDescription` of every node, in insertion order. -/
def Model.SerializeModel (m : Model α) : List (ObjectDescription α) :=
  m.nodes.map Node.GetDescription

/-- Modelled from the spec: the `Deserializer` reads back a type name, looks
up the corresponding factory in the context's registry
(`UnknownTypeNameError` when absent), default-constructs an instance and sets
its state from the description (`MalformedDescriptionError` when the required
fields are absent or of the wrong shape). -/
def deserializeNode (ctx : SerializationContext α) (d : ObjectDescription α) :
    Except SerializationError (Node α) :=
  match ctx.lookup d.typeName with
  | none => .error (.unknownTypeNameError d.typeName)
  | some factory =>
    match factory d with
    | none => .error (.malformedDescriptionError d.typeName)
    | some nd => .ok nd

/-- Modelled from the spec: deserializing a persisted graph reconstructs every
node from its recorded description; any serialization error aborts the
deserialization of the entire graph. -/
def DeserializeModel (ctx : SerializationContext α)
    (ds : List (ObjectDescription α)) : Except SerializationError (Model α) :=
  (ds.mapM (deserializeNode ctx)).map Model.mk

/-- The `ConstantNode` viewed as a graph `Node`: no inputs, the single output
port `output`, a computation step that ignores its (empty) inputs and fills
the output with the stored values, and the reflection state `values`. -/
def ConstantNode.asNode (valueTypeName : String) (node : ConstantNode α) : Node α :=
  { typeName := ConstantNode.GetTypeName valueTypeName
    inputs := []
    outputNames := [outputPortName]
    compute := fun _ => ConstantNode.Compute node
    state := [("values", FieldValue.seq node.values)] }

/-- The factory registered for `ConstantNode<ValueType>`: reconstruct the node
via `SetObjectState`. -/
def constantNodeFactory (valueTypeName : String) :
    ObjectDescription α → Option (Node α) :=
  fun d => (ConstantNode.SetObjectState d).map (ConstantNode.asNode valueTypeName)

/-- Modelled from the spec: a context is correctly registered for a model when
every node's runtime type name has a factory, and that factory, fed the
node's own description, reconstructs (per the `GetDescription` /
`SetObjectState` contract: the description captures exactly the
constructor-relevant state) a node with the same runtime type name and the
same field values. -/
def SerializationContext.RegisteredFor (ctx : SerializationContext α)
    (m : Model α) : Prop :=
  ∀ nd ∈ m.nodes, ∃ f, ctx.lookup nd.typeName = some f ∧
    ∃ nd2, f nd.GetDescription = some nd2 ∧
      nd2.typeName = nd.typeName ∧ nd2.state = nd.state

/-- Modelled from the spec: one `Compute()` step acting on the mutable
output-port storage of a node (per the spec's per-pass state machine, each
owned output port's stored sequence is `none` while `Uncomputed`).  The step
resolves nothing itself - it receives the already-resolved input sequences -
and (re)fills the storage of every owned output port with the computation's
results, regardless of what the storage held before. -/
def Node.computeStep (nd : Node α) (resolvedInputs : List (List α))
    (_portState : List (Option (List α))) : List (Option (List α)) :=
  (nd.compute resolvedInputs).map some

/-- `m.WalkL s l t`: a walk along dependency edges from `s` to `t`, visiting
the vertices of `l` (in order) after `s`. -/
inductive Model.WalkL (m : Model α) : Nat → List Nat → Nat → Prop
  | refl (a : Nat) : Model.WalkL m a [] a
  | step {a b c : Nat} {l : List Nat} :
      m.Edge a b → Model.WalkL m b l c → Model.WalkL m a (b :: l) c

/-- Every listed node appears after all nodes supplying one of its inputs. -/
def TopoSorted (m : Model α) (l : List Nat) : Prop :=
  ∀ (k : Nat) (hk : k < l.length) (j : Nat), m.Edge (l.get ⟨k, hk⟩) j → j ∈ l.take k

/-- From position `k0` on, the node emitted at each position is ready (all its
suppliers already emitted) and is the least insertion index among the
not-yet-emitted ready nodes - the insertion-order tie-break. -/
def StepMin (m : Model α) (k0 : Nat) (l : List Nat) : Prop :=
  ∀ (k : Nat) (hk : k < l.length), k0 ≤ k →
    m.ready (l.take k) (l.get ⟨k, hk⟩) = true ∧
    ∀ x, x < m.size → x ∉ l.take k → m.ready (l.take k) x = true →
      l.get ⟨k, hk⟩ ≤ x

/-! ### Concrete fixtures (used by the witness theorems) -/

/-- A serialization context registering exactly the `ConstantNode<double>`
factory. -/
def ctxW : SerializationContext ℚ :=
  ⟨[(ConstantNode.GetTypeName doubleName, constantNodeFactory doubleName)]⟩

/-- A two-node model of constant nodes. -/
def mW2 : Model ℚ :=
  ⟨[ConstantNode.asNode doubleName ⟨[5]⟩, ConstantNode.asNode doubleName ⟨[7, 8]⟩]⟩

/-- A node summing (concatenating) one element from each of the output ports
of nodes `0` and `1`. -/
def catNode : Node ℚ :=
  { typeName := "CatNode"
    inputs := [("input", [⟨0, 0, 0, 1⟩, ⟨1, 0, 0, 1⟩])]
    outputNames := [outputPortName]
    compute := fun xs => [xs.flatten]
    state := [] }

/-- A three-node model: two constant sources and a dependent node. -/
def mW3 : Model ℚ :=
  ⟨[ConstantNode.asNode doubleName ⟨[5]⟩, ConstantNode.asNode doubleName ⟨[7]⟩,
    catNode]⟩

/-! ### Basic lemmas about the dependency relation -/

theorem Model.edge_src_lt {m : Model α} {i j : Nat} (h : m.Edge i j) : i < m.size := by
  unfold Model.Edge Model.dependsOn at h
  by_contra hlt
  push_neg at hlt
  rw [List.getElem?_eq_none hlt] at h
  simp at h

theorem Model.edge_iff {m : Model α} {i j : Nat} {nd : Node α}
    (h : m.nodes[i]? = some nd) :
    m.Edge i j ↔ ∃ b ∈ nd.inputs, ∃ r ∈ b.2, r.srcNode = j := by
  unfold Model.Edge Model.dependsOn
  rw [h]
  simp [List.any_eq_true, beq_iff_eq]

theorem Model.not_edge_of_none {m : Model α} {i : Nat}
    (h : m.nodes[i]? = none) (j : Nat) : ¬ m.Edge i j := by
  unfold Model.Edge Model.dependsOn
  rw [h]
  simp

theorem Model.ready_iff {m : Model α} (emitted : List Nat) (i : Nat) :
    m.ready emitted i = true ↔ ∀ j, m.Edge i j → j ∈ emitted := by
  unfold Model.ready
  cases h : m.nodes[i]? with
  | none =>
      simp only [true_iff]
      intro j hj
      exact absurd hj (m.not_edge_of_none h j)
  | some nd =>
      rw [List.all_eq_true]
      constructor
      · intro hall j hj
        rw [m.edge_iff h] at hj
        obtain ⟨b, hb, r, hr, hsrc⟩ := hj
        have := hall b hb
        rw [List.all_eq_true] at this
        have := this r hr
        rw [List.elem_iff] at this  -- name to check
        rwa [hsrc] at this
      · intro hmem b hb
        rw [List.all_eq_true]
        intro r hr
        rw [List.elem_iff]
        exact hmem r.srcNode ((m.edge_iff h).2 ⟨b, hb, r, hr, rfl⟩)

/-- Readiness only depends on the membership set of the emitted list. -/
theorem Model.ready_congr {m : Model α} {l1 l2 : List Nat}
    (h : ∀ y, y ∈ l1 ↔ y ∈ l2) (i : Nat) :
    m.ready l1 i = m.ready l2 i := by
  by_cases h1 : m.ready l1 i = true
  · rw [h1]
    symm
    rw [m.ready_iff]
    intro j hj
    exact (h j).1 (((m.ready_iff l1 i).1 h1) j hj)
  · have h2 : ¬ m.ready l2 i = true := by
      intro h2
      exact h1 ((m.ready_iff l1 i).2 (fun j hj => (h j).2 (((m.ready_iff l2 i).1 h2) j hj)))
    simp only [Bool.not_eq_true] at h1 h2
    rw [h1, h2]

/-! ### Walks and bounded reachability -/

theorem Model.reflTransGen_iff_walkL {m : Model α} {s t : Nat} :
    Relation.ReflTransGen m.Edge s t ↔ ∃ l, m.WalkL s l t := by
  constructor
  · intro h
    induction h using Relation.ReflTransGen.head_induction_on with
    | refl => exact ⟨[], Model.WalkL.refl t⟩
    | head hab _ ih =>
        obtain ⟨l, hl⟩ := ih
        exact ⟨_, Model.WalkL.step hab hl⟩
  · rintro ⟨l, h⟩
    induction h with
    | refl a => exact Relation.ReflTransGen.refl
    | step hab _ ih => exact Relation.ReflTransGen.head hab ih

theorem Model.walkL_vertices_lt {m : Model α} {s t : Nat} {l : List Nat}
    (h : m.WalkL s l t) (ht : t < m.size) : ∀ x ∈ s :: l, x < m.size := by
  induction h with
  | refl a =>
      intro x hx
      simp at hx
      omega
  | step hab htail ih =>
      intro x hx
      rcases List.mem_cons.1 hx with hx | hx
      · subst hx
        exact Model.edge_src_lt hab
      · exact ih ht x hx

/-- Cut a walk at a later occurrence of a vertex: the remaining suffix is a
strictly shorter walk from that vertex. -/
theorem Model.walkL_suffix_of_mem {m : Model α} {s t x : Nat} {l : List Nat}
    (h : m.WalkL s l t) (hx : x ∈ l) :
    ∃ l2, m.WalkL x l2 t ∧ l2.length < l.length ∧ l2 ⊆ l := by
  induction h with
  | refl a => simp at hx
  | step hab htail ih =>
      rename_i a b c l'
      rcases List.mem_cons.1 hx with hx | hx
      · subst hx
        exact ⟨l', htail, by simp, by simp⟩
      · obtain ⟨l2, hw, hlen, hsub⟩ := ih hx
        exact ⟨l2, hw, by simp; omega, fun y hy => List.mem_cons_of_mem _ (hsub hy)⟩

/-- Every walk can be shortened to a duplicate-free walk over a subset of its
vertices. -/
theorem Model.walkL_to_nodup {m : Model α} :
    ∀ (n : Nat) (s t : Nat) (l : List Nat), l.length ≤ n → m.WalkL s l t →
      ∃ l2, m.WalkL s l2 t ∧ (s :: l2).Nodup ∧ l2 ⊆ l := by
  intro n
  induction n with
  | zero =>
      intro s t l hlen h
      interval_cases hl : l.length
      rw [List.length_eq_zero] at hl
      subst hl
      cases h with
      | refl => exact ⟨[], Model.WalkL.refl _, by simp, by simp⟩
  | succ n ih =>
      intro s t l hlen h
      by_cases hdup : (s :: l).Nodup
      · exact ⟨l, h, hdup, fun y hy => hy⟩
      · by_cases hs : s ∈ l
        · obtain ⟨l2, hw, hl2, hsub⟩ := Model.walkL_suffix_of_mem h hs
          obtain ⟨l3, hw3, hnd3, hsub3⟩ := ih s t l2 (by omega) hw
          exact ⟨l3, hw3, hnd3, fun y hy => hsub (hsub3 hy)⟩
        · cases h with
          | refl =>
              exact ⟨[], Model.WalkL.refl _, by simp, by simp⟩
          | step hab htail =>
              rename_i b l'
              obtain ⟨l3, hw3, hnd3, hsub3⟩ := ih b t l' (by simp at hlen; omega) htail
              refine ⟨b :: l3, Model.WalkL.step hab hw3, ?_, ?_⟩
              · rw [List.nodup_cons]
                refine ⟨?_, hnd3⟩
                intro hmem
                rcases List.mem_cons.1 hmem with hmem | hmem
                · exact hs (hmem ▸ List.mem_cons_self b l')
                · exact hs (List.mem_cons_of_mem _ (hsub3 hmem))
              · intro y hy
                rcases List.mem_cons.1 hy with hy | hy
                · exact hy ▸ List.mem_cons_self b l'
                · exact List.mem_cons_of_mem _ (hsub3 hy)

/-- A duplicate-free list of values below `n` has length at most `n`. -/
theorem nodup_lt_length_le {l : List Nat} {n : Nat} (hnd : l.Nodup)
    (hlt : ∀ x ∈ l, x < n) : l.length ≤ n := by
  have hsub : l.toFinset ⊆ Finset.range n := by
    intro x hx
    rw [List.mem_toFinset] at hx
    rw [Finset.mem_range]
    exact hlt x hx
  have := Finset.card_le_card hsub
  rwa [List.toFinset_card_of_nodup hnd, Finset.card_range] at this

theorem Model.reachesIn_sound {m : Model α} :
    ∀ (fuel s t : Nat), m.reachesIn fuel s t = true →
      Relation.ReflTransGen m.Edge s t := by
  intro fuel
  induction fuel with
  | zero =>
      intro s t h
      unfold Model.reachesIn at h
      rw [beq_iff_eq] at h
      exact h ▸ Relation.ReflTransGen.refl
  | succ n ih =>
      intro s t h
      unfold Model.reachesIn at h
      rw [Bool.or_eq_true, beq_iff_eq] at h
      rcases h with h | h
      · exact h ▸ Relation.ReflTransGen.refl
      · rw [List.any_eq_true] at h
        obtain ⟨j, _, hj⟩ := h
        rw [Bool.and_eq_true] at hj
        exact Relation.ReflTransGen.head hj.1 (ih j t hj.2)

theorem Model.reachesIn_complete {m : Model α} :
    ∀ (fuel : Nat) {s t : Nat} (l : List Nat), m.WalkL s l t → l.length ≤ fuel →
      t < m.size → m.reachesIn fuel s t = true := by
  intro fuel
  induction fuel with
  | zero =>
      intro s t l hw hlen ht
      interval_cases hl : l.length
      rw [List.length_eq_zero] at hl
      subst hl
      cases hw with
      | refl =>
          unfold Model.reachesIn
          exact beq_self_eq_true _
  | succ n ih =>
      intro s t l hw hlen ht
      unfold Model.reachesIn
      rw [Bool.or_eq_true, beq_iff_eq]
      cases hw with
      | refl => exact Or.inl rfl
      | step hab htail =>
          rename_i b l'
          right
          rw [List.any_eq_true]
          have hb : b < m.size := by
            cases htail with
            | refl => exact ht
            | step hbc htail2 => exact Model.edge_src_lt hbc
          refine ⟨b, List.mem_range.2 hb, ?_⟩
          rw [Bool.and_eq_true]
          exact ⟨hab, ih l' htail (by simp at hlen; omega) ht⟩

/-- With fuel `m.size`, bounded reachability decides reflexive-transitive
dependency. -/
theorem Model.reachesIn_iff {m : Model α} {s t : Nat} (ht : t < m.size) :
    m.reachesIn m.size s t = true ↔ Relation.ReflTransGen m.Edge s t := by
  constructor
  · exact Model.reachesIn_sound m.size s t
  · intro h
    obtain ⟨l, hw⟩ := Model.reflTransGen_iff_walkL.1 h
    obtain ⟨l2, hw2, hnd2, _⟩ := Model.walkL_to_nodup l.length s t l (le_refl _) hw
    have hlt := Model.walkL_vertices_lt hw2 ht
    have hlen := nodup_lt_length_le hnd2 hlt
    simp only [List.length_cons] at hlen
    exact Model.reachesIn_complete m.size l2 hw2 (by omega) ht

/-! ### Cycle-checked binding -/

/-- The dependency edges after appending a binding `(name, pe)` to node `i`:
the old edges plus one new edge from `i` to each source node of `pe`. -/
theorem Model.addBinding_edge_iff {m : Model α} {i : Nat} {name : String}
    {pe : PortElements} {nd : Node α} (hn : m.nodes[i]? = some nd) {x y : Nat} :
    (m.addBinding i name pe).Edge x y ↔
      m.Edge x y ∨ (x = i ∧ ∃ r ∈ pe, r.srcNode = y) := by
  have hi : i < m.nodes.length := (List.getElem?_eq_some.1 hn).1
  unfold Model.addBinding
  rw [hn]
  by_cases hx : x = i
  · subst hx
    rw [Model.edge_iff hn]
    unfold Model.Edge Model.dependsOn
    simp only [List.getElem?_set_self hi]
    simp [List.any_eq_true, beq_iff_eq]
  · unfold Model.Edge Model.dependsOn
    rw [List.getElem?_set_ne (fun h => hx h.symm)]
    simp [hx]

/-- Old dependency edges survive `addBinding`. -/
theorem Model.addBinding_edge_mono {m : Model α} {i : Nat} {name : String}
    {pe : PortElements} {nd : Node α} (hn : m.nodes[i]? = some nd) {x y : Nat}
    (h : m.Edge x y) : (m.addBinding i name pe).Edge x y :=
  (Model.addBinding_edge_iff hn).2 (Or.inl h)

/-- Decomposition at the last new edge: a reflexive-transitive dependency in
the extended graph either uses only old edges, or its tail after the last new
edge is an old-edge path starting at one of the new binding's source nodes
(and its prefix reaches the bound node `i`). -/
theorem Model.addBinding_rtg_decomp {m : Model α} {i : Nat} {name : String}
    {pe : PortElements} {nd : Node α} (hn : m.nodes[i]? = some nd) {a b : Nat}
    (h : Relation.ReflTransGen (m.addBinding i name pe).Edge a b) :
    Relation.ReflTransGen m.Edge a b ∨
      (Relation.ReflTransGen (m.addBinding i name pe).Edge a i ∧
        ∃ s, (∃ r ∈ pe, r.srcNode = s) ∧ Relation.ReflTransGen m.Edge s b) := by
  induction h with
  | refl => exact Or.inl Relation.ReflTransGen.refl
  | tail hac hcb ih =>
      rcases (Model.addBinding_edge_iff hn).1 hcb with hold | ⟨hci, r, hr, hsrc⟩
      · rcases ih with h1 | ⟨hai, s, hs, h2⟩
        · exact Or.inl (h1.tail hold)
        · exact Or.inr ⟨hai, s, hs, h2.tail hold⟩
      · rename_i c _
        subst hci
        exact Or.inr ⟨hac, _, ⟨r, hr, hsrc⟩, Relation.ReflTransGen.refl⟩

/-- If the old graph is acyclic, any cycle of the extended graph yields an
old-edge path from one of the new binding's source nodes back to `i`. -/
theorem Model.addBinding_cycle_reaches {m : Model α} {i : Nat} {name : String}
    {pe : PortElements} {nd : Node α} (hn : m.nodes[i]? = some nd)
    (hAC : m.Acyclic) {a : Nat}
    (hcyc : Relation.TransGen (m.addBinding i name pe).Edge a a) :
    ∃ r ∈ pe, Relation.ReflTransGen m.Edge r.srcNode i := by
  obtain ⟨c, hac, hca⟩ := (Relation.TransGen.tail'_iff).1 hcyc
  rcases (Model.addBinding_edge_iff hn).1 hca with hold | ⟨hci, r, hr, hsrc⟩
  · rcases Model.addBinding_rtg_decomp hn hac with h1 | ⟨hai, s, ⟨r, hr, hsrc⟩, h2⟩
    · exact absurd (Relation.TransGen.tail' h1 hold) (hAC a)
    · have h3 : Relation.ReflTransGen (m.addBinding i name pe).Edge s i := by
        refine Relation.ReflTransGen.trans ?_ hai
        refine Relation.ReflTransGen.trans ?_ (Relation.ReflTransGen.single
          (Model.addBinding_edge_mono hn hold))
        exact Relation.ReflTransGen.mono (fun x y h => Model.addBinding_edge_mono hn h) h2
      rcases Model.addBinding_rtg_decomp hn h3 with h4 | ⟨_, s2, ⟨r2, hr2, hsrc2⟩, h5⟩
      · exact ⟨r, hr, hsrc ▸ h4⟩
      · exact ⟨r2, hr2, hsrc2 ▸ h5⟩
  · subst hci
    rcases Model.addBinding_rtg_decomp hn hac with h1 | ⟨_, s, ⟨r2, hr2, hsrc2⟩, h2⟩
    · exact ⟨r, hr, hsrc ▸ h1⟩
    · exact ⟨r2, hr2, hsrc2 ▸ h2⟩

/-! ### Correctness of the dependency order -/

/-- On an acyclic graph, any nonempty set of still-unemitted nodes contains a
ready one (progress of the topological traversal). -/
theorem Model.exists_ready {m : Model α} (hAC : m.Acyclic) (hWF : m.WFRefs)
    (emitted rem : List Nat)
    (hmem : ∀ x, x ∈ rem ↔ (x < m.size ∧ x ∉ emitted)) (hne : rem ≠ []) :
    ∃ x ∈ rem, m.ready emitted x = true := by
  have hirr : ∀ a : Fin m.size,
      ¬ Relation.TransGen (fun a b : Fin m.size => m.Edge b.val a.val) a a := by
    intro a ha
    apply hAC a.val
    rw [show (fun a b : Fin m.size => m.Edge b.val a.val)
        = Function.swap (fun a b : Fin m.size => m.Edge a.val b.val) from rfl,
      Relation.transGen_swap] at ha
    exact Relation.TransGen.lift Fin.val (fun a b h => h) ha
  haveI : IsIrrefl (Fin m.size)
      (Relation.TransGen (fun a b : Fin m.size => m.Edge b.val a.val)) := ⟨hirr⟩
  have hwfT : WellFounded
      (Relation.TransGen (fun a b : Fin m.size => m.Edge b.val a.val)) :=
    Finite.wellFounded_of_trans_of_irrefl _
  have hsub : Subrelation (fun a b : Fin m.size => m.Edge b.val a.val)
      (Relation.TransGen (fun a b : Fin m.size => m.Edge b.val a.val)) :=
    fun h => Relation.TransGen.single h
  have hwfr : WellFounded (fun a b : Fin m.size => m.Edge b.val a.val) :=
    hsub.wf hwfT
  obtain ⟨x0, hx0⟩ := List.exists_mem_of_ne_nil rem hne
  have hx0lt : x0 < m.size := ((hmem x0).1 hx0).1
  obtain ⟨mn, hmnS, hmin⟩ :=
    hwfr.has_min {a : Fin m.size | a.val ∈ rem} ⟨⟨x0, hx0lt⟩, hx0⟩
  refine ⟨mn.val, hmnS, ?_⟩
  rw [Model.ready_iff]
  intro j hj
  have hjlt : j < m.size := hWF _ _ hj
  by_contra hjem
  have hjrem : j ∈ rem := (hmem j).2 ⟨hjlt, hjem⟩
  exact hmin ⟨j, hjlt⟩ hjrem hj

/-- `find?` over an ascending list returns the least element satisfying the
predicate. -/
theorem find?_sorted_min {p : Nat → Bool} :
    ∀ {l : List Nat}, l.Sorted (· < ·) → ∀ {i : Nat}, l.find? p = some i →
      ∀ {x : Nat}, x ∈ l → p x = true → i ≤ x := by
  intro l
  induction l with
  | nil => intro _ i hfind; simp at hfind
  | cons a t ih =>
      intro hs i hfind x hx hpx
      by_cases hpa : p a = true
      · rw [List.find?_cons_of_pos _ hpa] at hfind
        injection hfind with hia
        subst hia
        rcases List.mem_cons.1 hx with hx | hx
        · omega
        · exact Nat.le_of_lt ((List.sorted_cons.1 hs).1 x hx)
      · rw [List.find?_cons_of_neg _ (by simpa using hpa)] at hfind
        rcases List.mem_cons.1 hx with hx | hx
        · exact absurd (hx ▸ hpx) hpa
        · exact ih (List.sorted_cons.1 hs).2 hfind hx hpx

/-- Appending a node whose suppliers are all already listed preserves
topological sortedness. -/
theorem TopoSorted.snoc {m : Model α} {l1 : List Nat} (h : TopoSorted m l1)
    {i : Nat} (hi : ∀ j, m.Edge i j → j ∈ l1) : TopoSorted m (l1 ++ [i]) := by
  intro k hk j hj
  have hk2 : k < l1.length + 1 := by simpa using hk
  by_cases hlt : k < l1.length
  · rw [List.get_eq_getElem, List.getElem_append_left hlt] at hj
    have hmem := h k hlt j hj
    rw [List.take_append_eq_append_take]
    exact List.mem_append_left _ hmem
  · have hkeq : k = l1.length := by omega
    subst hkeq
    rw [List.get_eq_getElem, List.getElem_append_right (Nat.le_refl _)] at hj
    simp only [Nat.sub_self, List.getElem_cons_zero] at hj
    rw [List.take_left]
    exact hi j hj

theorem depOrderGo_succ (m : Model α) (n : Nat) (emitted rem : List Nat) :
    depOrderGo m (n+1) emitted rem
      = match rem.find? (m.ready emitted) with
        | none => emitted.reverse
        | some i => depOrderGo m n (i :: emitted) (rem.erase i) := rfl

/-- Main induction for `depOrderGo`: from a consistent intermediate state, the
traversal emits exactly the remaining nodes, topologically sorted, picking at
every step the least ready insertion index. -/
theorem depOrderGo_spec {m : Model α} (hAC : m.Acyclic) (hWF : m.WFRefs) :
    ∀ (fuel : Nat) (emitted rem : List Nat),
      fuel = rem.length →
      (∀ x, x ∈ rem ↔ (x < m.size ∧ x ∉ emitted)) →
      rem.Sorted (· < ·) →
      TopoSorted m emitted.reverse →
      ∃ σ, depOrderGo m fuel emitted rem = emitted.reverse ++ σ ∧
        σ.Perm rem ∧
        TopoSorted m (depOrderGo m fuel emitted rem) ∧
        StepMin m emitted.length (depOrderGo m fuel emitted rem) := by
  intro fuel
  induction fuel with
  | zero =>
      intro emitted rem hfuel hmem hsort htopo
      have hrem : rem = [] := List.length_eq_zero.1 hfuel.symm
      subst hrem
      have hout : depOrderGo m 0 emitted [] = emitted.reverse := rfl
      rw [hout]
      refine ⟨[], by simp, List.Perm.refl _, htopo, ?_⟩
      intro k hk hge
      rw [List.length_reverse] at hk
      omega
  | succ n ih =>
      intro emitted rem hfuel hmem hsort htopo
      have hne : rem ≠ [] := by
        intro h
        subst h
        simp at hfuel
      obtain ⟨x, hxrem, hxready⟩ := Model.exists_ready hAC hWF emitted rem hmem hne
      obtain ⟨i, hfind⟩ :=
        Option.isSome_iff_exists.1 (List.find?_isSome.mpr ⟨x, hxrem, hxready⟩)
      have hpi : m.ready emitted i = true := List.find?_some hfind
      have hirem : i ∈ rem := List.mem_of_find?_eq_some hfind
      have hilt : i < m.size := ((hmem i).1 hirem).1
      have hout : depOrderGo m (n+1) emitted rem
          = depOrderGo m n (i :: emitted) (rem.erase i) := by
        rw [depOrderGo_succ, hfind]
      have hfuel' : n = (rem.erase i).length := by
        rw [List.length_erase_of_mem hirem]
        omega
      have hmem' : ∀ y, y ∈ rem.erase i ↔ (y < m.size ∧ y ∉ i :: emitted) := by
        intro y
        rw [List.Nodup.mem_erase_iff hsort.nodup, hmem y, List.mem_cons]
        constructor
        · rintro ⟨hne2, hlt, hnem⟩
          exact ⟨hlt, fun h => h.elim (fun h => hne2 h) hnem⟩
        · rintro ⟨hlt, h⟩
          push_neg at h
          exact ⟨h.1, hlt, h.2⟩
      have hsort' : (rem.erase i).Sorted (· < ·) :=
        List.Pairwise.sublist (List.erase_sublist i rem) hsort
      have htopo' : TopoSorted m (i :: emitted).reverse := by
        rw [List.reverse_cons]
        refine TopoSorted.snoc htopo ?_
        intro j hj
        have := (Model.ready_iff emitted i).1 hpi j hj
        rwa [List.mem_reverse]
      obtain ⟨σ, hσout, hσperm, hσtopo, hσstep⟩ :=
        ih (i :: emitted) (rem.erase i) hfuel' hmem' hsort' htopo'
      have hsh : depOrderGo m n (i :: emitted) (rem.erase i)
          = emitted.reverse ++ i :: σ := by
        rw [hσout, List.reverse_cons, List.append_assoc]
        rfl
      rw [hout]
      refine ⟨i :: σ, hsh, ?_, hσtopo, ?_⟩
      · exact (hσperm.cons i).trans (List.perm_cons_erase hirem).symm
      · -- step-minimality from position `emitted.length` on
        intro k hk hge
        rcases Nat.lt_or_ge k (emitted.length + 1) with hcase | hcase
        · have hkeq : k = emitted.length := by omega
          subst hkeq
          have htake : (depOrderGo m n (i :: emitted) (rem.erase i)).take emitted.length
              = emitted.reverse := by
            rw [hsh]
            have := List.take_left emitted.reverse (i :: σ)
            rwa [List.length_reverse] at this
          have hget : (depOrderGo m n (i :: emitted) (rem.erase i)).get
              ⟨emitted.length, hk⟩ = i := by
            rw [List.get_of_eq hsh, List.get_eq_getElem, List.getElem_append_right
              (by rw [List.length_reverse])]
            simp
          rw [htake, hget]
          constructor
          · rw [Model.ready_congr (fun y => List.mem_reverse) i]
            exact hpi
          · intro y hylt hynem hyready
            rw [List.mem_reverse] at hynem
            rw [Model.ready_congr (fun z => List.mem_reverse) y] at hyready
            exact find?_sorted_min hsort hfind ((hmem y).2 ⟨hylt, hynem⟩) hyready
        · have := hσstep k hk (by simpa using hcase)
          exact this

/-- Full correctness of `GetDependencyOrder` on an acyclic well-formed model:
it is a permutation of all insertion indices, topologically sorted, and picks
at every step the least ready insertion index. -/
theorem Model.getDependencyOrder_spec {m : Model α} (hAC : m.Acyclic)
    (hWF : m.WFRefs) :
    m.GetDependencyOrder.Perm (List.range m.size) ∧
    TopoSorted m m.GetDependencyOrder ∧
    StepMin m 0 m.GetDependencyOrder := by
  obtain ⟨σ, hout, hperm, htopo, hstep⟩ :=
    depOrderGo_spec hAC hWF m.size [] (List.range m.size)
      (by rw [List.length_range])
      (by intro x; simp)
      (List.sorted_lt_range _)
      (by intro k hk j hj; simp at hk)
  have hord : m.GetDependencyOrder = σ := by
    unfold Model.GetDependencyOrder
    rw [hout]
    simp
  refine ⟨hord ▸ hperm, ?_, ?_⟩
  · exact htopo
  · exact hstep

theorem Model.getDependencyOrder_length {m : Model α} (hAC : m.Acyclic)
    (hWF : m.WFRefs) : m.GetDependencyOrder.length = m.size := by
  rw [(Model.getDependencyOrder_spec hAC hWF).1.length_eq, List.length_range]

theorem Model.getDependencyOrder_mem {m : Model α} (hAC : m.Acyclic)
    (hWF : m.WFRefs) (x : Nat) : x ∈ m.GetDependencyOrder ↔ x < m.size := by
  rw [(Model.getDependencyOrder_spec hAC hWF).1.mem_iff, List.mem_range]

/-! ### The verbatim-copy transform -/

theorem indexOf_lt_of_mem_take {j : Nat} :
    ∀ {l : List Nat} {k : Nat}, j ∈ l.take k → l.indexOf j < k := by
  intro l
  induction l with
  | nil => intro k h; simp at h
  | cons a t ih =>
      intro k h
      cases k with
      | zero => simp at h
      | succ k =>
          rw [List.take_succ_cons] at h
          by_cases hja : j = a
          · subst hja
            rw [List.indexOf_cons_self]
            omega
          · rcases List.mem_cons.1 h with h | h
            · exact absurd h hja
            · rw [List.indexOf_cons_ne _ (fun he => hja (Eq.symm he))]
              have := ih h
              omega

/-- On a model all of whose edges point to strictly smaller insertion indices,
the dependency order is just the insertion order. -/
theorem depOrderGo_range' {m2 : Model α} (h : ∀ x y, m2.Edge x y → y < x) :
    ∀ (cnt a : Nat) (emitted : List Nat), (∀ y, y ∈ emitted ↔ y < a) →
      depOrderGo m2 cnt emitted (List.range' a cnt)
        = emitted.reverse ++ List.range' a cnt := by
  intro cnt
  induction cnt with
  | zero => intro a emitted hmem; simp [depOrderGo]
  | succ n ih =>
      intro a emitted hmem
      rw [List.range'_succ a n 1, depOrderGo_succ]
      have hready : m2.ready emitted a = true := by
        rw [Model.ready_iff]
        intro j hj
        exact (hmem j).2 (h a j hj)
      rw [List.find?_cons_of_pos _ hready]
      show depOrderGo m2 n (a :: emitted) ((a :: List.range' (a+1) n).erase a)
        = emitted.reverse ++ a :: List.range' (a+1) n
      rw [List.erase_cons_head]
      rw [ih (a+1) (a :: emitted) ?_]
      · rw [List.reverse_cons, List.append_assoc]
        rfl
      · intro y
        rw [List.mem_cons, hmem y]
        omega

theorem Model.depOrder_of_decreasing {m2 : Model α}
    (h : ∀ x y, m2.Edge x y → y < x) :
    m2.GetDependencyOrder = List.range m2.size := by
  unfold Model.GetDependencyOrder
  rw [List.range_eq_range' m2.size, depOrderGo_range' h m2.size 0 [] (by simp)]
  simp

theorem Model.transformCopy_nodes {m : Model α} :
    (m.TransformCopy).nodes
      = m.GetDependencyOrder.map (fun i =>
          remapNode (fun j => m.GetDependencyOrder.indexOf j)
            ((m.nodes[i]?).getD fallbackNode)) := rfl

theorem Model.transformCopy_size {m : Model α} :
    (m.TransformCopy).size = m.GetDependencyOrder.length := by
  show (m.TransformCopy).nodes.length = _
  rw [Model.transformCopy_nodes, List.length_map]

theorem Model.transformCopy_nodes_get {m : Model α} {k : Nat}
    (hk : k < m.GetDependencyOrder.length) :
    (m.TransformCopy).nodes[k]?
      = some (remapNode (fun j => m.GetDependencyOrder.indexOf j)
          ((m.nodes[m.GetDependencyOrder.get ⟨k, hk⟩]?).getD fallbackNode)) := by
  rw [Model.transformCopy_nodes, List.getElem?_map, List.getElem?_eq_getElem hk]
  rw [List.get_eq_getElem]
  rfl

theorem Model.evalNode_succ_some {m : Model α} {i : Nat} {nd : Node α}
    (h : m.nodes[i]? = some nd) (fuel : Nat) :
    m.evalNode (fuel+1) i
      = nd.compute (nd.inputs.map (fun b => resolveElements (m.evalNode fuel) b.2)) := by
  show (match m.nodes[i]? with
    | some nd =>
        nd.compute (nd.inputs.map (fun (b : String × PortElements) =>
          resolveElements (m.evalNode fuel) b.2))
    | none => []) = _
  rw [h]

theorem remapNode_inputs (σ : Nat → Nat) (nd : Node α) :
    (remapNode σ nd).inputs
      = nd.inputs.map (fun b => (b.1, b.2.map (remapRange σ))) := rfl

theorem remapNode_compute (σ : Nat → Nat) (nd : Node α) :
    (remapNode σ nd).compute = nd.compute := rfl

theorem remapRange_srcNode (σ : Nat → Nat) (r : PortRange) :
    (remapRange σ r).srcNode = σ r.srcNode := rfl

/-- In the copied model every dependency edge points to a strictly smaller
index: the copy lists its nodes in (old) dependency order. -/
theorem Model.transformCopy_edge_lt {m : Model α} (hAC : m.Acyclic)
    (hWF : m.WFRefs) {x y : Nat} (h : (m.TransformCopy).Edge x y) : y < x := by
  have hx : x < (m.TransformCopy).size := Model.edge_src_lt h
  rw [Model.transformCopy_size] at hx
  have hnode := Model.transformCopy_nodes_get (m := m) hx
  have hi_mem : m.GetDependencyOrder.get ⟨x, hx⟩ ∈ m.GetDependencyOrder :=
    List.get_mem _ _ _
  have hi_lt : m.GetDependencyOrder.get ⟨x, hx⟩ < m.size :=
    (Model.getDependencyOrder_mem hAC hWF _).1 hi_mem
  obtain ⟨ndOld, hndOld⟩ : ∃ nd, m.nodes[m.GetDependencyOrder.get ⟨x, hx⟩]? = some nd :=
    ⟨_, List.getElem?_eq_getElem hi_lt⟩
  rw [hndOld, Option.getD_some] at hnode
  rw [Model.edge_iff hnode] at h
  obtain ⟨b, hb, r, hr, hsrc⟩ := h
  rw [remapNode_inputs] at hb
  rw [List.mem_map] at hb
  obtain ⟨b0, hb0, hbeq⟩ := hb
  subst hbeq
  simp only [List.mem_map] at hr
  obtain ⟨r0, hr0, hreq⟩ := hr
  subst hreq
  have hedge : m.Edge (m.GetDependencyOrder.get ⟨x, hx⟩) r0.srcNode :=
    (Model.edge_iff hndOld).2 ⟨b0, hb0, r0, hr0, rfl⟩
  have hmemtake := (Model.getDependencyOrder_spec hAC hWF).2.1 x hx r0.srcNode hedge
  have hidx := indexOf_lt_of_mem_take hmemtake
  rw [remapRange_srcNode] at hsrc
  omega

/-- Evaluation commutes with the verbatim copy: the copy of node `i` computes,
at every fuel, exactly the same per-port output values as `i`. -/
theorem Model.transformCopy_eval {m : Model α} (hAC : m.Acyclic) (hWF : m.WFRefs) :
    ∀ (fuel : Nat) (i : Nat), i ∈ m.GetDependencyOrder →
      (m.TransformCopy).evalNode fuel (m.GetDependencyOrder.indexOf i)
        = m.evalNode fuel i := by
  intro fuel
  induction fuel with
  | zero => intro i hi; rfl
  | succ n ih =>
      intro i hi
      have hidx : m.GetDependencyOrder.indexOf i < m.GetDependencyOrder.length :=
        List.indexOf_lt_length.2 hi
      have hget : m.GetDependencyOrder.get ⟨m.GetDependencyOrder.indexOf i, hidx⟩ = i :=
        List.indexOf_get hidx
      have hi_lt : i < m.size := (Model.getDependencyOrder_mem hAC hWF i).1 hi
      obtain ⟨nd, hnd⟩ : ∃ nd, m.nodes[i]? = some nd :=
        ⟨_, List.getElem?_eq_getElem hi_lt⟩
      have hnode := Model.transformCopy_nodes_get (m := m) hidx
      rw [hget, hnd, Option.getD_some] at hnode
      rw [Model.evalNode_succ_some hnode n, Model.evalNode_succ_some hnd n]
      rw [remapNode_compute]
      congr 1
      rw [remapNode_inputs, List.map_map]
      refine List.map_eq_map_iff.mpr ?_
      intro b hb
      simp only [Function.comp]
      simp only [resolveElements, List.map_map]
      congr 1
      refine List.map_eq_map_iff.mpr ?_
      intro r hr
      simp only [Function.comp]
      have hedge : m.Edge i r.srcNode := (Model.edge_iff hnd).2 ⟨b, hb, r, hr, rfl⟩
      have hmemtake := (Model.getDependencyOrder_spec hAC hWF).2.1
        (m.GetDependencyOrder.indexOf i) hidx r.srcNode (by rw [hget]; exact hedge)
      have hsup_mem : r.srcNode ∈ m.GetDependencyOrder :=
        List.take_subset _ _ hmemtake
      simp only [resolveRange, remapRange_srcNode]
      rw [ih r.srcNode hsup_mem]
      rfl

theorem Model.transformCopy_depOrder {m : Model α} (hAC : m.Acyclic)
    (hWF : m.WFRefs) :
    (m.TransformCopy).GetDependencyOrder = List.range (m.TransformCopy).size :=
  Model.depOrder_of_decreasing (fun _ _ h => Model.transformCopy_edge_lt hAC hWF h)

/-! ### The composite type-name scheme -/

theorem getCompositeTypeName_inj {v1 v2 base : String}
    (h : GetCompositeTypeName v1 base = GetCompositeTypeName v2 base) : v1 = v2 := by
  unfold GetCompositeTypeName at h
  have hd := congrArg String.data h
  simp only [String.data_append, List.append_assoc] at hd
  have h1 := List.append_cancel_left hd
  have h2 := List.append_cancel_left h1
  have h3 := List.append_cancel_right h2
  exact String.ext h3

/-! ### Serialization round trip -/

theorem deserializeNode_ok {ctx : SerializationContext α} {d : ObjectDescription α}
    {f : ObjectDescription α → Option (Node α)}
    (hf : ctx.lookup d.typeName = some f) {nd : Node α} (hnd : f d = some nd) :
    deserializeNode ctx d = Except.ok nd := by
  unfold deserializeNode
  rw [hf]
  show (match f d with
    | none => Except.error (SerializationError.malformedDescriptionError d.typeName)
    | some nd => Except.ok nd) = _
  rw [hnd]

theorem deserialize_mapM {ctx : SerializationContext α} :
    ∀ (nds : List (Node α)),
      (∀ nd ∈ nds, ∃ f, ctx.lookup nd.typeName = some f ∧
        ∃ nd2, f nd.GetDescription = some nd2 ∧
          nd2.typeName = nd.typeName ∧ nd2.state = nd.state) →
      ∃ nds2,
        (nds.map Node.GetDescription).mapM (deserializeNode ctx) = Except.ok nds2 ∧
        nds2.length = nds.length ∧
        nds2.map Node.typeName = nds.map Node.typeName ∧
        nds2.map Node.state = nds.map Node.state := by
  intro nds
  induction nds with
  | nil => exact fun _ => ⟨[], rfl, rfl, rfl, rfl⟩
  | cons a l ih =>
      intro h
      obtain ⟨f, hf, nd2, hnd2, hty, hst⟩ := h a (List.mem_cons_self a l)
      obtain ⟨l2, hl2, hlen, htys, hsts⟩ :=
        ih (fun nd hnd => h nd (List.mem_cons_of_mem a hnd))
      have hdes : deserializeNode ctx a.GetDescription = Except.ok nd2 :=
        deserializeNode_ok hf hnd2
      refine ⟨nd2 :: l2, ?_, by simp [hlen], by simp [hty, htys], by simp [hst, hsts]⟩
      rw [List.map_cons, List.mapM_cons, hdes, hl2]
      rfl

/-! ### Binding rejection and acceptance -/

theorem Model.bindInput_reject {m : Model α} {i : Nat} {name : String}
    {pe : PortElements} {nd : Node α} (hn : m.nodes[i]? = some nd)
    (hAC : m.Acyclic) (hcyc : ¬ (m.addBinding i name pe).Acyclic) :
    m.bindInput i name pe = (m, some GraphError.cyclicGraphError) := by
  have hi : i < m.size := (List.getElem?_eq_some.1 hn).1
  unfold Model.Acyclic at hcyc
  push_neg at hcyc
  obtain ⟨a, ha⟩ := hcyc
  obtain ⟨r, hr, hreach⟩ := Model.addBinding_cycle_reaches hn hAC ha
  have hcond : pe.any (fun r => m.reachesIn m.size r.srcNode i) = true :=
    List.any_eq_true.2 ⟨r, hr, (Model.reachesIn_iff hi).2 hreach⟩
  unfold Model.bindInput
  rw [if_pos hcond]

theorem Model.bindInput_ok_acyclic {m : Model α} {i : Nat} {name : String}
    {pe : PortElements} {nd : Node α} (hn : m.nodes[i]? = some nd)
    (hAC : m.Acyclic) {m2 : Model α}
    (hok : m.bindInput i name pe = (m2, none)) : m2.Acyclic := by
  have hi : i < m.size := (List.getElem?_eq_some.1 hn).1
  unfold Model.bindInput at hok
  by_cases hc : pe.any (fun r => m.reachesIn m.size r.srcNode i) = true
  · rw [if_pos hc] at hok
    have := congrArg Prod.snd hok
    simp at this
  · rw [if_neg hc] at hok
    have hm2 : m.addBinding i name pe = m2 := congrArg Prod.fst hok
    subst hm2
    intro a ha
    obtain ⟨r, hr, hreach⟩ := Model.addBinding_cycle_reaches hn hAC ha
    exact hc (List.any_eq_true.2 ⟨r, hr, (Model.reachesIn_iff hi).2 hreach⟩)

/-- A decreasing ranking certifies acyclicity. -/
theorem Model.acyclic_of_rank {m : Model α} (f : Nat → Nat)
    (h : ∀ x y, m.Edge x y → f y < f x) : m.Acyclic := by
  intro i hcyc
  have : ∀ a b, Relation.TransGen m.Edge a b → f b < f a := by
    intro a b hab
    induction hab with
    | single he => exact h _ _ he
    | tail hab he ih => exact Nat.lt_trans (h _ _ he) ih
  exact Nat.lt_irrefl _ (this i i hcyc)

/-! ### Facts about the concrete fixtures -/

/-- The only dependency edges of `mW3` go from node `2` to nodes `0` and `1`. -/
theorem mW3_edge_characterization : ∀ x y, mW3.Edge x y → x = 2 ∧ (y = 0 ∨ y = 1) := by
  intro x y h
  have hx : x < 3 := Model.edge_src_lt h
  unfold Model.Edge Model.dependsOn at h
  interval_cases x <;>
    simp [mW3, catNode, ConstantNode.asNode, beq_iff_eq] at h
  omega

theorem mW3_acyclic : mW3.Acyclic :=
  Model.acyclic_of_rank (fun x => x) (by
    intro x y h
    have := mW3_edge_characterization x y h
    show y < x
    omega)

theorem mW3_wfRefs : mW3.WFRefs := by
  intro i j h
  have := mW3_edge_characterization i j h
  show j < 3
  omega

theorem ctxW_registeredFor_mW2 : ctxW.RegisteredFor mW2 := by
  intro nd hnd
  have hcase : nd = ConstantNode.asNode doubleName ⟨[5]⟩
      ∨ nd = ConstantNode.asNode doubleName ⟨[7, 8]⟩ := by
    simpa [mW2] using hnd
  rcases hcase with h | h <;> subst h <;>
    exact ⟨constantNodeFactory doubleName, rfl, _, rfl, rfl, rfl⟩

/-! ### The claims -/

/-- C1: a `ConstantNode<double>` constructed from `[1.0, 2.0, 3.0]` serializes
to a description whose runtime type name is `ConstantNode<double>` and whose
`values` field equals `[1.0, 2.0, 3.0]`; deserializing that description
(through the registered factory, equivalently through `SetObjectState`)
reconstructs a node whose `Compute()` fills its single output port with
`[1.0, 2.0, 3.0]`, with no bound inputs. -/
theorem claim_C1_constant_scenario :
    (ConstantNode.GetDescription doubleName (⟨[1, 2, 3]⟩ : ConstantNode ℚ)).typeName
        = "ConstantNode<double>" ∧
    (ConstantNode.GetDescription doubleName
        (⟨[1, 2, 3]⟩ : ConstantNode ℚ)).getField "values"
        = some (FieldValue.seq [1, 2, 3]) ∧
    deserializeNode ctxW
        (ConstantNode.GetDescription doubleName (⟨[1, 2, 3]⟩ : ConstantNode ℚ))
        = Except.ok (ConstantNode.asNode doubleName ⟨[1, 2, 3]⟩) ∧
    ConstantNode.SetObjectState
        (ConstantNode.GetDescription doubleName (⟨[1, 2, 3]⟩ : ConstantNode ℚ))
        = some ⟨[1, 2, 3]⟩ ∧
    ConstantNode.Compute (⟨[1, 2, 3]⟩ : ConstantNode ℚ) = [[1, 2, 3]] ∧
    (ConstantNode.asNode doubleName (⟨[1, 2, 3]⟩ : ConstantNode ℚ)).inputs = [] :=
  ⟨rfl, rfl, rfl, rfl, rfl, rfl⟩

/-- C2: for every model whose node kinds are registered in the serialization
context (with factories honouring the `GetDescription`/`SetObjectState`
contract), deserializing the serialized form succeeds and yields a model with
the same node count, the same per-node runtime type names and the same field
values. -/
theorem claim_C2_serialization_roundtrip {α : Type} (m : Model α)
    (ctx : SerializationContext α) (hreg : ctx.RegisteredFor m) :
    ∃ m2, DeserializeModel ctx m.SerializeModel = Except.ok m2 ∧
      m2.size = m.size ∧
      m2.nodes.map Node.typeName = m.nodes.map Node.typeName ∧
      m2.nodes.map Node.state = m.nodes.map Node.state := by
  obtain ⟨nds2, hok, hlen, htys, hsts⟩ := deserialize_mapM m.nodes hreg
  refine ⟨⟨nds2⟩, ?_, hlen, htys, hsts⟩
  unfold DeserializeModel Model.SerializeModel
  rw [hok]
  rfl

/-- Witness for C2 at the concrete context `ctxW` and model `mW2`. -/
theorem claim_C2_serialization_roundtrip_witness :
    ctxW.RegisteredFor mW2 ∧
    ∃ m2, DeserializeModel ctxW mW2.SerializeModel = Except.ok m2 ∧
      m2.size = mW2.size ∧
      m2.nodes.map Node.typeName = mW2.nodes.map Node.typeName ∧
      m2.nodes.map Node.state = mW2.nodes.map Node.state :=
  ⟨ctxW_registeredFor_mW2,
   claim_C2_serialization_roundtrip mW2 ctxW ctxW_registeredFor_mW2⟩

/-- C3: the verbatim-copy transform of an acyclic well-formed model keeps the
node count, lists the copies in the source's dependency order (so the copy's
dependency order corresponds position-by-position to the source's), and every
copied node evaluates - at every fuel, hence also through `Evaluate` - to
exactly the output-port values of its source node. -/
theorem claim_C3_transform_copy_equivalence {α : Type} (m : Model α)
    (hAC : m.Acyclic) (hWF : m.WFRefs) :
    (m.TransformCopy).size = m.size ∧
    (m.TransformCopy).GetDependencyOrder = List.range m.size ∧
    (∀ (k : Nat) (hk : k < m.GetDependencyOrder.length),
      (m.TransformCopy).nodes[k]?
        = some (remapNode (fun j => m.GetDependencyOrder.indexOf j)
            ((m.nodes[m.GetDependencyOrder.get ⟨k, hk⟩]?).getD fallbackNode))) ∧
    (∀ (fuel i : Nat), i ∈ m.GetDependencyOrder →
      (m.TransformCopy).evalNode fuel (m.GetDependencyOrder.indexOf i)
        = m.evalNode fuel i) ∧
    (∀ i, i < m.size →
      (m.TransformCopy).Evaluate (m.GetDependencyOrder.indexOf i) = m.Evaluate i) := by
  have hsize : (m.TransformCopy).size = m.size := by
    rw [Model.transformCopy_size, Model.getDependencyOrder_length hAC hWF]
  refine ⟨hsize, ?_, fun k hk => Model.transformCopy_nodes_get hk,
    Model.transformCopy_eval hAC hWF, ?_⟩
  · rw [Model.transformCopy_depOrder hAC hWF, hsize]
  · intro i hi
    unfold Model.Evaluate
    rw [hsize]
    exact Model.transformCopy_eval hAC hWF m.size i
      ((Model.getDependencyOrder_mem hAC hWF i).2 hi)

/-- Witness for C3 at the concrete three-node model `mW3`. -/
theorem claim_C3_transform_copy_equivalence_witness :
    mW3.Acyclic ∧ mW3.WFRefs ∧
    ((mW3.TransformCopy).size = mW3.size ∧
     (mW3.TransformCopy).GetDependencyOrder = List.range mW3.size ∧
     (∀ (k : Nat) (hk : k < mW3.GetDependencyOrder.length),
       (mW3.TransformCopy).nodes[k]?
         = some (remapNode (fun j => mW3.GetDependencyOrder.indexOf j)
             ((mW3.nodes[mW3.GetDependencyOrder.get ⟨k, hk⟩]?).getD fallbackNode))) ∧
     (∀ (fuel i : Nat), i ∈ mW3.GetDependencyOrder →
       (mW3.TransformCopy).evalNode fuel (mW3.GetDependencyOrder.indexOf i)
         = mW3.evalNode fuel i) ∧
     (∀ i, i < mW3.size →
       (mW3.TransformCopy).Evaluate (mW3.GetDependencyOrder.indexOf i)
         = mW3.Evaluate i)) :=
  ⟨mW3_acyclic, mW3_wfRefs,
   claim_C3_transform_copy_equivalence mW3 mW3_acyclic mW3_wfRefs⟩

/-- C4: on a valid (acyclic, well-formed) model, `GetDependencyOrder` lists
every node exactly once (a permutation of the insertion indices), places
every node after all nodes supplying one of its inputs, is deterministic
(repeated calls yield the identical sequence), and breaks ties among the
currently independent (ready) nodes by least insertion index. -/
theorem claim_C4_dependency_order {α : Type} (m : Model α)
    (hAC : m.Acyclic) (hWF : m.WFRefs) :
    m.GetDependencyOrder.Perm (List.range m.size) ∧
    TopoSorted m m.GetDependencyOrder ∧
    m.GetDependencyOrder = m.GetDependencyOrder ∧
    StepMin m 0 m.GetDependencyOrder := by
  obtain ⟨hperm, htopo, hstep⟩ := Model.getDependencyOrder_spec hAC hWF
  exact ⟨hperm, htopo, rfl, hstep⟩

/-- Witness for C4 at the concrete three-node model `mW3`. -/
theorem claim_C4_dependency_order_witness :
    mW3.Acyclic ∧ mW3.WFRefs ∧
    (mW3.GetDependencyOrder.Perm (List.range mW3.size) ∧
     TopoSorted mW3 mW3.GetDependencyOrder ∧
     mW3.GetDependencyOrder = mW3.GetDependencyOrder ∧
     StepMin mW3 0 mW3.GetDependencyOrder) :=
  ⟨mW3_acyclic, mW3_wfRefs, claim_C4_dependency_order mW3 mW3_acyclic mW3_wfRefs⟩

/-- C5: on an acyclic model, an attempted input binding whose addition would
make the dependency graph cyclic fails with `CyclicGraphError` and returns
the model unchanged; and whenever `bindInput` succeeds, the resulting model
is again acyclic - a traversal over a cyclic graph is never exposed. -/
theorem claim_C5_cyclic_bind_rejected {α : Type} (m : Model α) {i : Nat}
    {nd : Node α} (hn : m.nodes[i]? = some nd) (hAC : m.Acyclic)
    (name : String) (pe : PortElements) :
    (¬ (m.addBinding i name pe).Acyclic →
      m.bindInput i name pe = (m, some GraphError.cyclicGraphError)) ∧
    (∀ m2, m.bindInput i name pe = (m2, none) → m2.Acyclic) :=
  ⟨fun hcyc => Model.bindInput_reject hn hAC hcyc,
   fun _ hok => Model.bindInput_ok_acyclic hn hAC hok⟩

/-- Witness for C5: binding node `0` of `mW3` to an output of node `2` (which
depends on node `0`) is exactly the cyclic situation covered by the claim. -/
theorem claim_C5_cyclic_bind_rejected_witness :
    mW3.nodes[0]? = some (ConstantNode.asNode doubleName ⟨[5]⟩) ∧
    mW3.Acyclic ∧
    ((¬ (mW3.addBinding 0 "extra" [⟨2, 0, 0, 1⟩]).Acyclic →
       mW3.bindInput 0 "extra" [⟨2, 0, 0, 1⟩]
         = (mW3, some GraphError.cyclicGraphError)) ∧
     (∀ m2, mW3.bindInput 0 "extra" [⟨2, 0, 0, 1⟩] = (m2, none) → m2.Acyclic)) :=
  ⟨rfl, mW3_acyclic,
   claim_C5_cyclic_bind_rejected mW3 rfl mW3_acyclic "extra" [⟨2, 0, 0, 1⟩]⟩

/-- C6: the composite type-name scheme is stable (the name is a fixed formula
in the value-type name) and collision-free (distinct value-type names yield
distinct composite names, for any base and in particular for
`ConstantNode`), and `ConstantNode`'s type name is exactly the composition of
`"ConstantNode"` with the value type's name. -/
theorem claim_C6_typeName_scheme (v1 v2 : String) (h : v1 ≠ v2) :
    ConstantNode.GetTypeName v1 = GetCompositeTypeName v1 "ConstantNode" ∧
    (∀ base : String, GetCompositeTypeName v1 base = base ++ "<" ++ v1 ++ ">") ∧
    (∀ base : String, GetCompositeTypeName v1 base ≠ GetCompositeTypeName v2 base) ∧
    ConstantNode.GetTypeName v1 ≠ ConstantNode.GetTypeName v2 := by
  refine ⟨rfl, fun base => rfl, ?_, ?_⟩
  · intro base heq
    exact h (getCompositeTypeName_inj heq)
  · intro heq
    exact h (getCompositeTypeName_inj heq)

/-- Witness for C6 at the value-type names `double` and `float`. -/
theorem claim_C6_typeName_scheme_witness :
    "double" ≠ "float" ∧
    (ConstantNode.GetTypeName "double"
        = GetCompositeTypeName "double" "ConstantNode" ∧
     (∀ base : String, GetCompositeTypeName "double" base = base ++ "<" ++ "double" ++ ">") ∧
     (∀ base : String,
       GetCompositeTypeName "double" base ≠ GetCompositeTypeName "float" base) ∧
     ConstantNode.GetTypeName "double" ≠ ConstantNode.GetTypeName "float") :=
  ⟨by decide, claim_C6_typeName_scheme "double" "float" (by decide)⟩

/-- C7: `Compute()` is deterministic given fixed inputs - in this embedding a
node's computation step is a pure function, so two runs from the same
resolved input values coincide, as do two evaluations of the same node of the
same model; a `ConstantNode`, having no inputs, produces its stored value
sequence on its single output port regardless of the input state. -/
theorem claim_C7_compute_deterministic (α : Type) :
    (∀ (nd : Node α) (resolvedInputs : List (List α)),
      nd.compute resolvedInputs = nd.compute resolvedInputs) ∧
    (∀ (m : Model α) (fuel i : Nat), m.evalNode fuel i = m.evalNode fuel i) ∧
    (∀ (vtn : String) (cn : ConstantNode α) (ins1 ins2 : List (List α)),
      (ConstantNode.asNode vtn cn).compute ins1
          = (ConstantNode.asNode vtn cn).compute ins2 ∧
      (ConstantNode.asNode vtn cn).compute ins1 = [cn.values] ∧
      ConstantNode.Compute cn = [cn.GetValues]) :=
  ⟨fun _ _ => rfl, fun _ _ _ => rfl, fun _ _ _ _ => ⟨rfl, rfl, rfl⟩⟩

/-- C8: recomputation is idempotent - running a node's `Compute()` step again
with identical resolved inputs leaves the stored output-port values
unchanged; indeed the resulting port state does not depend on the previous
port state at all, since `Compute()` refills every owned output port. -/
theorem claim_C8_recompute_idempotent (α : Type) :
    ∀ (nd : Node α) (resolvedInputs : List (List α))
      (st : List (Option (List α))),
      nd.computeStep resolvedInputs (nd.computeStep resolvedInputs st)
          = nd.computeStep resolvedInputs st ∧
      ∀ st2, nd.computeStep resolvedInputs st = nd.computeStep resolvedInputs st2 :=
  fun _ _ _ => ⟨rfl, fun _ => rfl⟩

/-- C9: a `ConstantNode` owns exactly one output port, named `output`, and
declares no input ports; hence in any model containing it, it has no outgoing
dependency edge (it is a source vertex), and its computation step never reads
an upstream value. -/
theorem claim_C9_constant_source_vertex (α : Type) (vtn : String)
    (cn : ConstantNode α) (m : Model α) (i : Nat)
    (h : m.nodes[i]? = some (ConstantNode.asNode vtn cn)) :
    (ConstantNode.asNode vtn cn).outputNames = [outputPortName] ∧
    outputPortName = "output" ∧
    (ConstantNode.asNode vtn cn).inputs = [] ∧
    (∀ j, ¬ m.Edge i j) ∧
    (∀ ins, (ConstantNode.asNode vtn cn).compute ins = ConstantNode.Compute cn) := by
  refine ⟨rfl, rfl, rfl, ?_, fun ins => rfl⟩
  intro j hj
  rw [Model.edge_iff h] at hj
  obtain ⟨b, hb, _⟩ := hj
  simp [ConstantNode.asNode] at hb

/-- Witness for C9 at node `0` of the concrete model `mW2`. -/
theorem claim_C9_constant_source_vertex_witness :
    mW2.nodes[0]? = some (ConstantNode.asNode doubleName ⟨[5]⟩) ∧
    ((ConstantNode.asNode doubleName (⟨[5]⟩ : ConstantNode ℚ)).outputNames
        = [outputPortName] ∧
     outputPortName = "output" ∧
     (ConstantNode.asNode doubleName (⟨[5]⟩ : ConstantNode ℚ)).inputs = [] ∧
     (∀ j, ¬ mW2.Edge 0 j) ∧
     (∀ ins, (ConstantNode.asNode doubleName (⟨[5]⟩ : ConstantNode ℚ)).compute ins
        = ConstantNode.Compute ⟨[5]⟩)) :=
  ⟨rfl, claim_C9_constant_source_vertex ℚ doubleName ⟨[5]⟩ mW2 0 rfl⟩

/-- C10: the virtual `GetRuntimeTypeName` of every `ConstantNode<ValueType>`
instance returns exactly the string of the static `GetTypeName` of the same
instantiation (both are defined in `ConstantNode.h`, the former delegating to
the latter). -/
theorem claim_C10_runtime_typeName (α : Type) (vtn : String)
    (nd : ConstantNode α) :
    ConstantNode.GetRuntimeTypeName vtn nd = ConstantNode.GetTypeName vtn := rfl

end EMLL
